import Mathlib

/-!
Verification of the `checkulps` ULP-checking tool (`src/checkulps/checkulps.cc`
together with `src/include/floatranges.h`, `src/include/wyhash64.h` and
`src/include/iohelper.h`).

Floating-point data is embedded at the bit level: a binary32/binary64 datum is
its bit pattern, a natural number below `2^32` (resp. `2^64`).  Finite values
are interpreted as exact rationals, and the floating-point operations the tool
performs (subtraction, absolute value, division by an ulp) are modelled by
exact rational arithmetic followed by IEEE-754 rounding at the appropriate
precision, parametrised by the active rounding mode.
-/

namespace Checkulps

/-! ### Binary interchange formats

`Fmt` carries the exponent-field width and the mantissa-field width of an
IEEE-754 binary format; `f32` and `f64` are the two formats the tool
instantiates (`float` and `double`). -/
structure Fmt where
  eb : ℕ
  mb : ℕ
  deriving DecidableEq

def f32 : Fmt := ⟨8, 23⟩

def f64 : Fmt := ⟨11, 52⟩

namespace Fmt

/-- Total width in bits of the format. -/
def w (f : Fmt) : ℕ := f.eb + f.mb + 1

/-- Exponent bias of the format. -/
def bias (f : Fmt) : ℤ := 2 ^ (f.eb - 1) - 1

/-- Number of mantissa digits counting the implicit bit
(`std::numeric_limits<F>::digits`). -/
def digits (f : Fmt) : ℕ := f.mb + 1

/-- Minimum normalised exponent (`std::numeric_limits<F>::min_exponent`):
the smallest positive normal value is `2^(min_exponent - 1)`. -/
def minExponent (f : Fmt) : ℤ := 2 - f.bias

end Fmt

/-- Sign bit of a bit pattern. -/
def signB (f : Fmt) (u : ℕ) : ℕ := u / 2 ^ (f.eb + f.mb)

/-- Biased exponent field of a bit pattern. -/
def expf (f : Fmt) (u : ℕ) : ℕ := u / 2 ^ f.mb % 2 ^ f.eb

/-- Mantissa field of a bit pattern. -/
def mant (f : Fmt) (u : ℕ) : ℕ := u % 2 ^ f.mb

def isNan (f : Fmt) (u : ℕ) : Bool :=
  (expf f u == 2 ^ f.eb - 1) && (mant f u != 0)

def isInf (f : Fmt) (u : ℕ) : Bool :=
  (expf f u == 2 ^ f.eb - 1) && (mant f u == 0)

def isZero (f : Fmt) (u : ℕ) : Bool :=
  (expf f u == 0) && (mant f u == 0)

def isSubnormal (f : Fmt) (u : ℕ) : Bool :=
  (expf f u == 0) && (mant f u != 0)

def isNormal (f : Fmt) (u : ℕ) : Bool :=
  (expf f u != 0) && (expf f u != 2 ^ f.eb - 1)

def isFinite (f : Fmt) (u : ℕ) : Bool :=
  expf f u != 2 ^ f.eb - 1

/-- The `issignaling` C11 macro emulation from `checkulps.cc`: flip the quiet
bit with xor, clear the sign bit, and compare against the quiet-NaN
threshold.  For `float` this is
`((u ^ 0x00400000) & 0x7fffffff) > 0x7fc00000`, for `double` the analogous
64-bit constants. -/
def issignaling (f : Fmt) (u : ℕ) : Bool :=
  ((u ^^^ 2 ^ (f.mb - 1)) &&& (2 ^ (f.eb + f.mb) - 1))
    > (2 ^ f.eb - 1) * 2 ^ f.mb + 2 ^ (f.mb - 1)

/-- Specification-side notion of a signaling NaN: a NaN whose quiet bit (the
top mantissa bit) is clear. -/
def isSignalingSpec (f : Fmt) (u : ℕ) : Bool :=
  isNan f u && (mant f u < 2 ^ (f.mb - 1))

/-! ### Exact value of a finite bit pattern, `fpclassify`, `ilogb`, `ldexp`, `ulp` -/
/-- Kernel-computable power `2^e : ℚ` for an integer exponent (Mathlib's
`zpow` does not reduce definitionally, so concrete witnesses need this). -/
def pow2 (e : ℤ) : ℚ :=
  if 0 ≤ e then ((2 ^ e.toNat : ℕ) : ℚ) else 1 / ((2 ^ (-e).toNat : ℕ) : ℚ)

/-- Dyadic rational: an integer significand times a power of two.  Every
finite binary-format value, every exact difference of two of them, and every
exact quotient by an ulp (a power of two) is of this shape, so the whole
`ulpdiff` pipeline can be evaluated in exact integer arithmetic. -/
abbrev Dyadic := ℤ × ℤ

/-- Rational value of a dyadic. -/
def dval (d : Dyadic) : ℚ := (d.1 : ℚ) * pow2 d.2

/-- Dyadic value of a finite (zero, subnormal or normal) bit pattern. -/
def valD (f : Fmt) (u : ℕ) : Dyadic :=
  let sgn : ℤ := if signB f u % 2 = 1 then -1 else 1
  if expf f u = 0 then
    (sgn * (mant f u : ℤ), Fmt.minExponent f - Fmt.digits f)
  else
    (sgn * ((2 ^ f.mb + mant f u : ℕ) : ℤ), (expf f u : ℤ) - f.bias - f.mb)

/-- Exact rational value of a finite bit pattern. -/
def valF (f : Fmt) (u : ℕ) : ℚ := dval (valD f u)

/-- The C99 `fpclassify` classes. -/
inductive FpClass where
  | zero | subnormal | normal | infinite | nan
  deriving DecidableEq

/-- Mirror of `std::fpclassify` on a bit pattern. -/
def fpclassifyF (f : Fmt) (u : ℕ) : FpClass :=
  if expf f u = 0 then
    (if mant f u = 0 then .zero else .subnormal)
  else if expf f u = 2 ^ f.eb - 1 then
    (if mant f u = 0 then .infinite else .nan)
  else .normal

/-- The value of `std::ilogb` on a normal bit pattern: the unbiased exponent.
(For a normal value `v`, `2^(ilogb v) <= |v| < 2^(ilogb v + 1)`.)  Only used
on normal inputs, matching the source's use inside the `FP_NORMAL` case. -/
def ilogbF (f : Fmt) (u : ℕ) : ℤ := (expf f u : ℤ) - f.bias

/-- Exact model of `std::ldexp (x, e) = x * 2^e`; in every use below the
result is exactly representable in the target format, so no rounding model is
needed here. -/
def ldexpQ (x : ℚ) (e : ℤ) : ℚ := x * pow2 e

/-- The exponent passed to `ldexp` inside each branch of the `ulp` function
of `checkulps.cc`: `min_exponent - digits` for `FP_ZERO`/`FP_SUBNORMAL`,
`ilogb (value) - digits + 1` for `FP_NORMAL`.  The default case of the
source is `std::unreachable ()`; the 0 here is junk standing for that
unreachable branch (never consulted: the callers only divide finite
numerators by it, see `divUlpF`). -/
def ulpExp (f : Fmt) (u : ℕ) : ℤ :=
  match fpclassifyF f u with
  | .zero => Fmt.minExponent f - Fmt.digits f
  | .subnormal => Fmt.minExponent f - Fmt.digits f
  | .normal => ilogbF f u - Fmt.digits f + 1
  | _ => 0

/-- The `ulp` function of `checkulps.cc`: `ldexp (1.0, ...)` of the
branch-selected exponent.  The result is always exactly representable in the
format, so the exact rational is the value of the returned float. -/
def ulpF (f : Fmt) (u : ℕ) : ℚ := ldexpQ 1 (ulpExp f u)

/-! ### Rounding modes and exact IEEE-754 rounding -/
/-- The four C99 rounding modes tested by the tool (`FE_TONEAREST`,
`FE_UPWARD`, `FE_DOWNWARD`, `FE_TOWARDZERO`). -/
inductive RMode where
  | toNearest | upward | downward | towardZero
  deriving DecidableEq

/-- Fuel-driven structural base-2 logarithm (kernel-computable, unlike the
well-founded `Nat.log2`): for `1 <= n`, `2 ^ log2N n <= n < 2 ^ (log2N n + 1)`. -/
def nlog2 (fuel n : ℕ) : ℕ :=
  match fuel with
  | 0 => 0
  | fuel + 1 => if n ≤ 1 then 0 else nlog2 fuel (n / 2) + 1

def log2N (n : ℕ) : ℕ := nlog2 n n

/-- Bit pattern of an infinity with the given sign. -/
def infBits (f : Fmt) (neg : Bool) : ℕ :=
  (if neg then 1 else 0) * 2 ^ (f.eb + f.mb) + (2 ^ f.eb - 1) * 2 ^ f.mb

/-- Bit pattern of the largest finite magnitude with the given sign. -/
def maxFinBits (f : Fmt) (neg : Bool) : ℕ :=
  (if neg then 1 else 0) * 2 ^ (f.eb + f.mb) + (2 ^ f.eb - 2) * 2 ^ f.mb
    + (2 ^ f.mb - 1)

/-- Canonical quiet NaN bit pattern (`0x7FC00000` for binary32). -/
def qnanBits (f : Fmt) : ℕ := (2 ^ f.eb - 1) * 2 ^ f.mb + 2 ^ (f.mb - 1)

/-- Does `n1 * 2^g` exceed the largest finite magnitude of the format? -/
def overflows (f : Fmt) (n1 : ℕ) (g : ℤ) : Bool :=
  let emax : ℤ := ((2 ^ f.eb - 2 : ℕ) : ℤ) - f.bias - f.mb
  let M : ℕ := 2 ^ Fmt.digits f - 1
  if emax ≤ g then M < n1 * 2 ^ (g - emax).toNat
  else M * 2 ^ (emax - g).toNat < n1

/-- Encode a finite value `(-1)^neg * n * 2^g` (with `n` already on the grid
of the format and in range, `g` the grid exponent) as a bit pattern,
renormalising the possible carry out of rounding. -/
def encodeFin (f : Fmt) (neg : Bool) (n : ℕ) (g : ℤ) : ℕ :=
  let s := (if neg then 1 else 0) * 2 ^ (f.eb + f.mb)
  let p := if n ≥ 2 ^ (f.mb + 1) then (n / 2, g + 1) else (n, g)
  if p.1 < 2 ^ f.mb then s + p.1
  else s + (p.2 + f.mb + f.bias).toNat * 2 ^ f.mb + (p.1 - 2 ^ f.mb)

/-- Exact IEEE-754 rounding of the dyadic `K * 2^E` to a bit pattern of
format `f` under rounding mode `m`: overflow goes to infinity or to the
largest finite value as the standard prescribes per mode, underflow is
gradual on the subnormal grid, a total underflow gives a zero carrying the
sign of the exact value. -/
def roundD (f : Fmt) (m : RMode) (K E : ℤ) : ℕ :=
  let neg := K < 0
  let A := K.natAbs
  let e : ℤ := (log2N A : ℤ) + E
  let emin : ℤ := Fmt.minExponent f - Fmt.digits f
  let g : ℤ := if e - f.mb < emin then emin else e - f.mb
  let sh : ℤ := E - g
  let n : ℕ := if 0 ≤ sh then A * 2 ^ sh.toNat else A / 2 ^ (-sh).toNat
  let rem : ℕ := if 0 ≤ sh then 0 else A % 2 ^ (-sh).toNat
  let den : ℕ := if 0 ≤ sh then 1 else 2 ^ (-sh).toNat
  let up : Bool :=
    match m with
    | .toNearest =>
        if den < 2 * rem then true else if 2 * rem = den then n % 2 = 1
        else false
    | .towardZero => false
    | .upward => if neg then false else rem ≠ 0
    | .downward => if neg then rem ≠ 0 else false
  let n1 := if up then n + 1 else n
  if n1 = 0 then (if neg then 2 ^ (f.eb + f.mb) else 0)
  else if overflows f n1 g then
    match m with
    | .toNearest => infBits f neg
    | .upward => if neg then maxFinBits f true else infBits f false
    | .downward => if neg then infBits f true else maxFinBits f false
    | .towardZero => maxFinBits f neg
  else encodeFin f neg n1 g

/-! ### Floating-point comparisons and the operations used by `ulpdiff` -/
/-- Comparison of two dyadics by cross-shifting to a common exponent. -/
def dLt (a b : Dyadic) : Bool :=
  if a.2 ≤ b.2 then a.1 < b.1 * ((2 ^ (b.2 - a.2).toNat : ℕ) : ℤ)
  else a.1 * ((2 ^ (a.2 - b.2).toNat : ℕ) : ℤ) < b.1

/-- Extended value of a non-NaN bit pattern: a finite dyadic or a signed
infinity. -/
inductive EV where
  | ninf | fin (d : Dyadic) | pinf
  deriving DecidableEq

def extValD (f : Fmt) (u : ℕ) : EV :=
  if isInf f u then (if signB f u % 2 = 1 then .ninf else .pinf)
  else .fin (valD f u)

def evLt : EV → EV → Bool
  | .ninf, .ninf => false
  | .ninf, _ => true
  | .fin _, .ninf => false
  | .fin x, .fin y => dLt x y
  | .fin _, .pinf => true
  | .pinf, _ => false

/-- The C `<` comparison on two bit patterns (false if either is a NaN). -/
def fltB (f : Fmt) (a b : ℕ) : Bool :=
  !isNan f a && !isNan f b && evLt (extValD f a) (extValD f b)

/-- The C `>=` comparison on two bit patterns (false if either is a NaN). -/
def fgeB (f : Fmt) (a b : ℕ) : Bool :=
  !isNan f a && !isNan f b && !evLt (extValD f a) (extValD f b)

/-- The C `fabs`: clear the sign bit. -/
def absF (f : Fmt) (u : ℕ) : ℕ := u % 2 ^ (f.eb + f.mb)

/-- IEEE-754 subtraction `a - b` on bit patterns under rounding mode `m`:
NaN operands and `inf - inf` of equal sign give a quiet NaN, other infinite
operands give the appropriate infinity, and finite operands are subtracted
exactly and rounded (an exact zero result is `-0.0` under `FE_DOWNWARD` and
`+0.0` otherwise, per IEEE 754). -/
def subF (f : Fmt) (m : RMode) (a b : ℕ) : ℕ :=
  if isNan f a || isNan f b then qnanBits f
  else if isInf f a && isInf f b then
    (if signB f a % 2 = signB f b % 2 then qnanBits f else a)
  else if isInf f a then a
  else if isInf f b then infBits f (signB f b % 2 = 0)
  else
    let d1 := valD f a
    let d2 := valD f b
    let em := if d1.2 ≤ d2.2 then d1.2 else d2.2
    let K := d1.1 * ((2 ^ (d1.2 - em).toNat : ℕ) : ℤ)
      - d2.1 * ((2 ^ (d2.2 - em).toNat : ℕ) : ℤ)
    if K = 0 then (if m = RMode.downward then 2 ^ (f.eb + f.mb) else 0)
    else roundD f m K em

/-- Division of the (non-negative) absolute difference `a` by
`ulp (expected)`, the second step of `ulpdiff`.  Dividing by an ulp is an
exact dyadic exponent shift followed by one rounding, which is exactly the
IEEE division.  When `expected` is NaN or infinite the source's `ulp` hits
`std::unreachable ()` (undefined behaviour); that case is harmless here
because the numerator `a` is then itself NaN or infinite (the subtraction
already produced a special value), and those branches do not consult the
divisor. -/
def divUlpF (f : Fmt) (m : RMode) (a e : ℕ) : ℕ :=
  if isNan f a then qnanBits f
  else if isInf f a then infBits f false
  else
    let d := valD f a
    roundD f m d.1 (d.2 - ulpExp f e)

/-- The `ulpdiff` function: `fabs (given - expected) / ulp (expected)`,
evaluated in the float arithmetic of format `f` under rounding mode `m`. -/
def ulpdiffF (f : Fmt) (m : RMode) (g e : ℕ) : ℕ :=
  divUlpF f m (absF f (subF f m g e)) e

/-! ### The `result_t` record -/
/-- Model of `result_t<F>`: the rounding mode, the two compared bit
patterns, the stored (clamped) `ulp` field and the `max` threshold, both as
bit patterns of `f`. -/
structure ResultT where
  rnd : RMode
  computed : ℕ
  expected : ℕ
  ulpb : ℕ
  maxb : ℕ
  deriving DecidableEq

/-- The `result_t` constructor: compute `ulpdiff (computed, expected)`,
replace a NaN or infinite result by `0.0`, then clamp to `max` when
`ulp >= max`. -/
def mkResultT (f : Fmt) (m : RMode) (c e mx : ℕ) : ResultT :=
  let d := ulpdiffF f m c e
  let d1 := if isNan f d || isInf f d then 0 else d
  let d2 := if fgeB f d1 mx then mx else d1
  ⟨m, c, e, d2, mx⟩

/-- The member `result_t::check`: `ulp < max`. -/
def checkR (f : Fmt) (r : ResultT) : Bool := fltB f r.ulpb r.maxb

/-- The member `result_t::check_full`: signaling NaNs fail, two NaNs agree,
two infinities agree when their signs do, any other special value fails, and
otherwise the threshold test `check` decides. -/
def checkFullR (f : Fmt) (r : ResultT) : Bool :=
  if issignaling f r.computed || issignaling f r.expected then false
  else if isNan f r.computed && isNan f r.expected then true
  else if isInf f r.computed && isInf f r.expected then
    signB f r.computed % 2 == signB f r.expected % 2
  else if isInf f r.computed || isNan f r.computed
      || isInf f r.expected || isNan f r.expected then false
  else checkR f r

/-! ### The two-output `result_f_fp_fp_t` record (sincos-like functions) -/
/-- Model of `result_f_fp_fp_t<F>`: one input, two computed and two expected
values (e.g. `sincos`), a combined `ulp` field and the `max` threshold. -/
structure ResultFpFp where
  rnd : RMode
  input : ℕ
  computed1 : ℕ
  computed2 : ℕ
  expected1 : ℕ
  expected2 : ℕ
  ulpb : ℕ
  maxb : ℕ
  deriving DecidableEq

/-- The member `result_f_fp_fp_t::calc_ulp`: `ulpdiff` with a NaN/infinite
result replaced by `0.0`, clamped to `max`. -/
def calcUlp (f : Fmt) (m : RMode) (mx c e : ℕ) : ℕ :=
  let d := ulpdiffF f m c e
  if isNan f d || isInf f d then 0
  else if fgeB f d mx then mx else d

/-- The `result_f_fp_fp_t` constructor: the stored `ulp` is the larger of
the two per-pair clamped ulps (`ulp1 > ulp0 ? ulp1 : ulp0`). -/
def mkResultFpFp (f : Fmt) (m : RMode) (i c1 c2 e1 e2 mx : ℕ) : ResultFpFp :=
  let u0 := calcUlp f m mx c1 e1
  let u1 := calcUlp f m mx c2 e2
  ⟨m, i, c1, c2, e1, e2, if fltB f u0 u1 then u1 else u0, mx⟩

/-- The member `result_f_fp_fp_t::check`: `ulp < max`. -/
def check2 (f : Fmt) (r : ResultFpFp) : Bool := fltB f r.ulpb r.maxb

/-- The member `result_f_fp_fp_t::check_full`.  The first condition is
transcribed verbatim from the source, which tests `computed1`, `computed2`
and then `expected2` twice — `expected1` is never tested for signaling. -/
def checkFull2 (f : Fmt) (r : ResultFpFp) : Bool :=
  if issignaling f r.computed1 || issignaling f r.computed2
      || issignaling f r.expected2 || issignaling f r.expected2 then false
  else if (isNan f r.computed1 && isNan f r.expected1)
      && (isNan f r.computed2 && isNan f r.expected2) then true
  else if (isInf f r.computed1 && isInf f r.expected1)
      && (isInf f r.computed2 && isInf f r.expected2) then
    (signB f r.computed1 % 2 == signB f r.expected1 % 2)
      && (signB f r.computed2 % 2 == signB f r.expected2 % 2)
  else check2 f r

/-! ### Full bit-pattern enumeration (`check_full_f` and `floatranges.h`) -/
/-- A `Description::FullRange` sample: a label and two bit-pattern bounds. -/
structure FullRange where
  name : String
  start : ℕ
  endb : ℕ
  deriving DecidableEq

/-- The iteration domain of the `check_full_f` sampling loop
`for (uint64_t i = sample.start; i < sample.end; i++)`: the half-open
interval of bit patterns `[start, end)`.  Each index is reinterpreted as a
float of the target type (`floatrange::Limits<F>::from`), which in this
bit-level embedding is the identity. -/
def enumIndices (s : FullRange) : List ℕ := List.range' s.start (s.endb - s.start)

/-- The `floatrange::Limits<float>` bounds used to build the full-range
samples (`src/include/floatranges.h`). -/
def PlusNormalMinF32 : ℕ := 0x00800000

def PlusNormalMaxF32 : ℕ := 0x7F7FFFFF

/-! ### Rounding-mode sets and command-line parsing -/
/-- Model of `round_mode_t`: a name, an abbreviation and the C99 mode. -/
structure RoundModeT where
  name : String
  abbr : String
  mode : RMode
  deriving DecidableEq

/-- The `k_round_modes` array, in its insertion order (the comment in the
source: default rounding mode `FE_TONEAREST` first). -/
def kRoundModes : List RoundModeT :=
  [⟨"FE_TONEAREST", "rndn", .toNearest⟩,
   ⟨"FE_UPWARD", "rndu", .upward⟩,
   ⟨"FE_DOWNWARD", "rndd", .downward⟩,
   ⟨"FE_TOWARDZERO", "rndz", .towardZero⟩]

/-- Structural single-character splitter (`String.splitOn` is defined by
well-founded recursion and does not reduce in the kernel). -/
def splitOnChar (delim : Char) : List Char → List (List Char)
  | [] => [[]]
  | c :: rest =>
    match splitOnChar delim rest with
    | [] => [[c]]
    | t :: ts => if c = delim then [] :: t :: ts else (c :: t) :: ts

/-- Model of `split_with_ranges`: split on the delimiter.  The tool only
ever splits on the one-character delimiter `","`; for that case this agrees
with `std::views::split`. -/
def splitWithRanges (s delim : String) : List String :=
  match delim.data with
  | [d] => (splitOnChar d s.data).map String.mk
  | _ => [s]

/-- Recursive worker of `round_from_option`: look each token up in
`k_round_modes` by abbreviation, reject unknown tokens and duplicates
(`round_mode_t::operator==` compares the `mode` field), and append the found
entry.  `error (...)` terminates the process; it is modelled by
`Except.error`. -/
def roundFromOptionGo : List String → List RoundModeT →
    Except String (List RoundModeT)
  | [], acc => .ok acc
  | r :: rest, acc =>
    match kRoundModes.find? (fun m => m.abbr == r) with
    | some m =>
        if acc.any (fun x => x.mode == m.mode) then
          .error ("rounding mode already defined: " ++ r)
        else roundFromOptionGo rest (acc ++ [m])
    | none => .error ("invalid rounding mode: " ++ r)

/-- Model of `round_from_option`: parse a comma-separated list of rounding
mode abbreviations into a `round_set`. -/
def roundFromOption (rnds : String) : Except String (List RoundModeT) :=
  roundFromOptionGo (splitWithRanges rnds ",") []

/-- Model of `default_round_option`: `std::accumulate` over `k_round_modes`
starting from the first abbreviation, appending `,abbrev` for the rest. -/
def defaultRoundOption : String :=
  match kRoundModes with
  | [] => ""
  | m :: rest => rest.foldl (fun acc r => acc ++ "," ++ r.abbr) m.abbr

/-! ### Failure modes, ULP histograms and the per-sample loop -/
/-- Model of `fail_mode_t`. -/
inductive FailMode where
  | none | first | all
  deriving DecidableEq

/-- The `k_fail_modes` table. -/
def kFailModes : List (String × FailMode) :=
  [("none", .none), ("first", .first), ("all", .all)]

/-- Model of `fail_mode_from_options`. -/
def failModeFromOptions (s : String) : Except String FailMode :=
  match kFailModes.find? (fun p => p.1 == s) with
  | some p => .ok p.2
  | Option.none => .error ("invalid fail mode: " ++ s)

/-- A ULP histogram (`ulpacc_t`): the contents of the `std::map` listed in
ascending key order with unique keys.  Keys are the stored `ulp` floats; the
stored ulps are always non-negative finite values, on which the float
ordering used by `std::map` agrees with the bit-pattern ordering, so the key
is kept as the bit pattern. -/
abbrev Hist := List (ℕ × ℕ)

/-- Add `v` to the count of key `k` (`map[k] += v`), keeping keys sorted. -/
def bump : Hist → ℕ → ℕ → Hist
  | [], k, v => [(k, v)]
  | (k1, v1) :: t, k, v =>
    if k < k1 then (k, v) :: (k1, v1) :: t
    else if k = k1 then (k1, v1 + v) :: t
    else (k1, v1) :: bump t k v

/-- Model of `ulpacc_reduction`: `for (ulp in inh) inout[ulp.first] +=
ulp.second`. -/
def ulpaccReduction (inout inh : Hist) : Hist :=
  inh.foldl (fun acc p => bump acc p.1 p.2) inout

/-- Histogram of unit increments over a list of keys
(`ulpaccrange[ret->ulp] += 1` per sample). -/
def histOf (l : List ℕ) : Hist := l.foldl (fun h k => bump h k 1) []

/-- Result of a sampling loop: the accumulated histogram, the samples
printed to standard error, and `some code` when the loop terminated the
process via `std::exit (code)`. -/
structure LoopOut (α : Type) where
  hist : Hist
  printed : List α
  exitCode : Option ℕ
  deriving DecidableEq

def EXIT_FAILURE : ℕ := 1

/-- The per-sample loop body shared by `check_random_f` (with `check`) and
`check_full_f` (with `check_full`): on a failing sample, `first` prints it
and calls `std::exit (EXIT_FAILURE)` before the histogram increment,
`all` prints it and falls through to the increment, `none` just falls
through; passing samples are always counted. -/
def runChecksGo {α : Type} (chk : α → Bool) (key : α → ℕ) (fm : FailMode) :
    List α → Hist → List α → LoopOut α
  | [], h, pr => ⟨h, pr, Option.none⟩
  | r :: rest, h, pr =>
    if chk r then runChecksGo chk key fm rest (bump h (key r) 1) pr
    else
      match fm with
      | .first => ⟨h, pr ++ [r], some EXIT_FAILURE⟩
      | .all => runChecksGo chk key fm rest (bump h (key r) 1) (pr ++ [r])
      | .none => runChecksGo chk key fm rest (bump h (key r) 1) pr

def runChecks {α : Type} (chk : α → Bool) (key : α → ℕ) (fm : FailMode)
    (l : List α) : LoopOut α :=
  runChecksGo chk key fm l [] []

/-- The exit status of the whole process after a loop: the `std::exit` code
if the loop called it, otherwise 0 (`main` returns normally). -/
def processExitCode {α : Type} (out : LoopOut α) : ℕ :=
  match out.exitCode with
  | some c => c
  | Option.none => 0

/-! ### The `wyhash64` generator and the per-mode reseeding -/
/-- One step of the `wyhash64` generator: bump the state by the additive
constant, then two 64x64->128 multiply-xor-fold rounds.  Returns the new
state and the 64-bit output. -/
def wyhashStep (state : ℕ) : ℕ × ℕ :=
  let s := (state + 0x60bee2bee120fc15) % 2 ^ 64
  let t1 := s * 0xa3b195354a39b70d
  let m1 := (t1 / 2 ^ 64 ^^^ t1) % 2 ^ 64
  let t2 := m1 * 0x1b03738712fad5c9
  let m2 := (t2 / 2 ^ 64 ^^^ t2) % 2 ^ 64
  (s, m2)

/-- The first `n` raw outputs of a generator seeded with `seed`
(`wyhash64::seed` stores the seed as the state unchanged). -/
def wyStream (seed : ℕ) : ℕ → List ℕ
  | 0 => []
  | n + 1 =>
    let p := wyhashStep seed
    p.2 :: wyStream p.1 n

/-- The raw generator outputs of one rounding-mode pass of
`check_random_f`: slot `i` gets a fresh generator `rng_t (rng_states[i])`
copied from the captured seed and produces `draws[i]` outputs.  The mode
only selects what is computed from the stream, not the stream itself. -/
def passRawOutputs (seeds draws : List ℕ) : List (List ℕ) :=
  (seeds.zip draws).map (fun p => wyStream p.1 p.2)

/-- The sequential mode loop of `check_random_f`, restricted to its random
state: each iteration re-seeds the local generators from the unmodified
global `rng_states` and runs one pass; the global seeds are threaded
through unchanged (they are only read). -/
def checkRandomRngLoop (draws : List ℕ) :
    List RMode → List ℕ → List (RMode × List (List ℕ))
  | [], _ => []
  | m :: rest, seeds =>
    (m, passRawOutputs seeds draws) :: checkRandomRngLoop draws rest seeds

/-! ### The rounding-mode scope (`round_setup_t`) -/
/-- Exit status of a dynamic scope: fell off the end, propagated an
exception, or terminated the process via `std::exit` (which, per the C++
standard, does NOT run destructors of automatic-storage objects). -/
inductive Outcome where
  | normal | thrown | exited (code : ℕ)
  deriving DecidableEq

/-- Model of a block guarded by `round_setup_t (rnd)`: save the current
rounding mode (`saved_rnd = fegetround ()`), install `rnd`, run the body;
the destructor restores `saved_rnd` on every path that leaves the scope
(normal completion or stack unwinding), but `std::exit` terminates the
process without running it, leaving the installed mode in place for the
remainder of process shutdown. -/
def withRoundSetup (rnd : RMode) (body : RMode → RMode × Outcome)
    (cur : RMode) : RMode × Outcome :=
  let saved := cur
  let r := body rnd
  match r.2 with
  | .exited c => (r.1, .exited c)
  | o => (saved, o)

/-- The parallel-region body of a sampling pass, restricted to its effect on
the process rounding mode: it runs the per-sample loop without touching the
mode, and a `first`-policy failure turns into `std::exit (EXIT_FAILURE)`. -/
def passBody {α : Type} (chk : α → Bool) (fm : FailMode) (samples : List α) :
    RMode → RMode × Outcome :=
  fun cur =>
    match (runChecks chk (fun _ => 0) fm samples).exitCode with
    | some c => (cur, .exited c)
    | Option.none => (cur, .normal)

/-! ### Claim C7: order of the parsed rounding-mode set -/
instance instDecEqExcept {e a : Type} [DecidableEq e] [DecidableEq a] :
    DecidableEq (Except e a) := fun x y =>
  match x, y with
  | .ok u, .ok v =>
      if h : u = v then isTrue (by rw [h])
      else isFalse (by intro hh; cases hh; exact h rfl)
  | .error u, .error v =>
      if h : u = v then isTrue (by rw [h])
      else isFalse (by intro hh; cases hh; exact h rfl)
  | .ok _, .error _ => isFalse (by intro hh; cases hh)
  | .error _, .ok _ => isFalse (by intro hh; cases hh)

/-! ### Claim C9: histogram merge is pointwise addition -/
/-- Keys of a histogram are strictly ascending (the `std::map` invariant). -/
def HSorted (h : Hist) : Prop := List.Chain' (fun p q => p.1 < q.1) h

/-- All counts are positive (entries only ever grow by increments). -/
def HPos (h : Hist) : Prop := ∀ p ∈ h, 0 < p.2

def HWf (h : Hist) : Prop := HSorted h ∧ HPos h

/-- Count stored under key `k` (0 when absent). -/
def hLookup : Hist → ℕ → ℕ
  | [], _ => 0
  | (k1, v1) :: t, k => if k = k1 then v1 else hLookup t k

/-! ### Generic bit-slicing lemmas used to reason about the C bit tricks -/
theorem xor_split {k b d : ℕ} (a c : ℕ) (hb : b < 2 ^ k) (hd : d < 2 ^ k) :
    (2 ^ k * a + b) ^^^ (2 ^ k * c + d) = 2 ^ k * (a ^^^ c) + (b ^^^ d) := by
  apply Nat.eq_of_testBit_eq
  intro i
  rw [Nat.testBit_xor, Nat.testBit_mul_pow_two_add _ hb,
    Nat.testBit_mul_pow_two_add _ hd,
    Nat.testBit_mul_pow_two_add _ (Nat.xor_lt_two_pow hb hd)]
  by_cases h : i < k <;> simp [h, Nat.testBit_xor]

theorem xor_one (a : ℕ) : a ^^^ 1 = if a % 2 = 0 then a + 1 else a - 1 := by
  have h1 : (1 : ℕ) < 2 ^ 1 := by norm_num
  have hm : a % 2 < 2 ^ 1 := by have := Nat.mod_lt a (y := 2) (by norm_num); simpa using this
  have hsplit := xor_split (k := 1) (a / 2) 0 hm h1
  have ha : 2 ^ 1 * (a / 2) + a % 2 = a := by omega
  rw [ha] at hsplit
  norm_num at hsplit
  rw [hsplit]
  rcases Nat.mod_two_eq_zero_or_one a with h | h <;> simp [h] <;> omega

theorem land_mask (x k : ℕ) : x &&& (2 ^ k - 1) = x % 2 ^ k := by
  apply Nat.eq_of_testBit_eq
  intro i
  rw [Nat.testBit_land, Nat.testBit_two_pow_sub_one, Nat.testBit_mod_two_pow]
  by_cases h : i < k <;> simp [h]

theorem xor_pow_arith {k : ℕ} (u : ℕ) :
    u ^^^ 2 ^ k = if u / 2 ^ k % 2 = 0 then u + 2 ^ k else u - 2 ^ k := by
  have hm : u % 2 ^ k < 2 ^ k := Nat.mod_lt _ (Nat.two_pow_pos k)
  have hx := xor_split (k := k) (u / 2 ^ k) 1 hm (Nat.two_pow_pos k)
  rw [Nat.div_add_mod, show 2 ^ k * 1 + 0 = 2 ^ k by ring, Nat.xor_zero] at hx
  have hd := Nat.div_add_mod u (2 ^ k)
  rcases Nat.mod_two_eq_zero_or_one (u / 2 ^ k) with h | h
  · rw [if_pos h, hx, xor_one, if_pos h, Nat.mul_add, Nat.mul_one]
    omega
  · have h1 : 1 ≤ u / 2 ^ k := by
      rcases Nat.eq_zero_or_pos (u / 2 ^ k) with h0 | h0
      · rw [h0] at h; simp at h
      · exact h0
    have h3 : 2 ^ k * 1 ≤ 2 ^ k * (u / 2 ^ k) := Nat.mul_le_mul_left _ h1
    rw [if_neg (by omega), hx, xor_one, if_neg (by omega), Nat.mul_sub_one]
    omega

theorem issignaling_eq_f32 (u : ℕ) (hu : u < 2 ^ 32) :
    issignaling f32 u = isSignalingSpec f32 u := by
  have hmask : (u ^^^ 4194304) &&& 2147483647 = (u ^^^ 4194304) % 2147483648 := by
    have h := land_mask (u ^^^ 4194304) 31
    norm_num at h
    exact h
  have hxor : u ^^^ 4194304
      = if u / 4194304 % 2 = 0 then u + 4194304 else u - 4194304 := by
    have h := xor_pow_arith (k := 22) u
    norm_num at h
    exact h
  simp only [issignaling, isSignalingSpec, isNan, expf, mant, f32]
  rw [Bool.eq_iff_iff]
  simp only [decide_eq_true_eq, Bool.and_eq_true, beq_iff_eq, bne_iff_ne, ne_eq]
  norm_num
  rw [hmask, hxor]
  split_ifs with hpar <;> omega

theorem issignaling_eq_f64 (u : ℕ) (hu : u < 2 ^ 64) :
    issignaling f64 u = isSignalingSpec f64 u := by
  have hmask : (u ^^^ 2251799813685248) &&& 9223372036854775807
      = (u ^^^ 2251799813685248) % 9223372036854775808 := by
    have h := land_mask (u ^^^ 2251799813685248) 63
    norm_num at h
    exact h
  have hxor : u ^^^ 2251799813685248
      = if u / 2251799813685248 % 2 = 0 then u + 2251799813685248
        else u - 2251799813685248 := by
    have h := xor_pow_arith (k := 51) u
    norm_num at h
    exact h
  simp only [issignaling, isSignalingSpec, isNan, expf, mant, f64]
  rw [Bool.eq_iff_iff]
  simp only [decide_eq_true_eq, Bool.and_eq_true, beq_iff_eq, bne_iff_ne, ne_eq]
  norm_num
  rw [hmask, hxor]
  split_ifs with hpar <;> omega

theorem pow2_eq_zpow (e : ℤ) : pow2 e = (2 : ℚ) ^ e := by
  unfold pow2
  split
  · next h =>
      push_cast
      rw [← zpow_natCast, Int.toNat_of_nonneg h]
  · next h =>
      push_cast
      rw [one_div, ← zpow_natCast, Int.toNat_of_nonneg (by omega), ← zpow_neg,
        neg_neg]

/-! ### Claim C1: the `check_full_f` enumeration domain -/
/-- C1: the claim asserts that `check_full_f` enumerates the closed
bit-pattern interval `[start_bits, end_bits]`, i.e. `end_bits - start_bits
+ 1` inputs per rounding mode (2130706432 for the binary32 positive-normal
range; the figure 2139095039 quoted by the claim is not even equal to its
own formula).  The loop `for (i = sample.start; i < sample.end; i++)`
actually enumerates the half-open interval: it visits `end_bits -
start_bits = 2130706431` bit patterns and never evaluates `0x7F7FFFFF`
(`FLT_MAX`) itself, although that pattern has clear sign bit and biased
exponent 254 exactly as the enumerated ones do, and the `Limits` bounds are
documented as covering all binary32 normal numbers. -/
theorem c1_full_enumeration_misses_max :
    (enumIndices ⟨"positive normal (float)", PlusNormalMinF32,
        PlusNormalMaxF32⟩).length = 2130706431
    ∧ (enumIndices ⟨"positive normal (float)", PlusNormalMinF32,
        PlusNormalMaxF32⟩).length ≠ PlusNormalMaxF32 - PlusNormalMinF32 + 1
    ∧ PlusNormalMaxF32 ∉
        enumIndices ⟨"positive normal (float)", PlusNormalMinF32,
          PlusNormalMaxF32⟩
    ∧ (∀ u ∈ enumIndices ⟨"positive normal (float)", PlusNormalMinF32,
          PlusNormalMaxF32⟩,
        signB f32 u = 0 ∧ 1 ≤ expf f32 u ∧ expf f32 u ≤ 254)
    ∧ signB f32 PlusNormalMaxF32 = 0 ∧ expf f32 PlusNormalMaxF32 = 254 := by
  have hlen : (enumIndices ⟨"positive normal (float)", PlusNormalMinF32,
      PlusNormalMaxF32⟩).length = 2130706431 := by
    rw [enumIndices, List.length_range']
    decide
  refine ⟨hlen, ?_, ?_, ?_, by decide, by decide⟩
  · rw [hlen]
    decide
  · intro h
    rw [enumIndices, List.mem_range'_1] at h
    simp only [PlusNormalMinF32, PlusNormalMaxF32] at h
    omega
  · intro u hu
    rw [enumIndices, List.mem_range'_1] at hu
    simp only [PlusNormalMinF32, PlusNormalMaxF32] at hu
    unfold signB expf f32
    norm_num
    omega

/-- Witness for C1: the smallest enumerated pattern is in the domain and
satisfies the per-element property. -/
theorem c1_witness :
    signB f32 0x00800000 = 0 ∧ 1 ≤ expf f32 0x00800000
      ∧ expf f32 0x00800000 ≤ 254 :=
  c1_full_enumeration_misses_max.2.2.2.1 0x00800000
    (by rw [enumIndices, List.mem_range'_1]
        simp [PlusNormalMinF32, PlusNormalMaxF32])

/-! ### Claim C5: per-slot RNG streams are identical across mode passes -/
/-- C5: in the mode loop of `check_random_f`, every rounding-mode pass
re-seeds each worker slot's generator from the unmodified captured seed, so
the per-slot sequences of raw generator outputs (and hence the multiset of
inputs derived from them) are the same in every pass. -/
theorem c5_reseed_reproducible (draws seeds : List ℕ) (modes : List RMode)
    (p q : RMode × List (List ℕ))
    (hp : p ∈ checkRandomRngLoop draws modes seeds)
    (hq : q ∈ checkRandomRngLoop draws modes seeds) :
    p.2 = q.2 ∧ p.2 = passRawOutputs seeds draws := by
  have key : ∀ (ms : List RMode) (x : RMode × List (List ℕ)),
      x ∈ checkRandomRngLoop draws ms seeds
        → x.2 = passRawOutputs seeds draws := by
    intro ms
    induction ms with
    | nil => intro x hx; simp [checkRandomRngLoop] at hx
    | cons m rest ih =>
        intro x hx
        rw [checkRandomRngLoop] at hx
        rcases List.mem_cons.mp hx with h | h
        · rw [h]
        · exact ih x h
  exact ⟨(key modes p hp).trans (key modes q hq).symm, key modes p hp⟩

/-- Witness for C5: two worker slots, two draws in slot 0 and one in slot 1,
two rounding-mode passes; the raw streams coincide. -/
theorem c5_witness :
    (RMode.toNearest, passRawOutputs [1, 2] [2, 1]).2
        = (RMode.upward, passRawOutputs [1, 2] [2, 1]).2
    ∧ (RMode.toNearest, passRawOutputs [1, 2] [2, 1]).2
        = passRawOutputs [1, 2] [2, 1] :=
  c5_reseed_reproducible [2, 1] [1, 2] [RMode.toNearest, RMode.upward]
    (RMode.toNearest, passRawOutputs [1, 2] [2, 1])
    (RMode.upward, passRawOutputs [1, 2] [2, 1])
    (by rw [checkRandomRngLoop]; exact List.mem_cons_self _ _)
    (by rw [checkRandomRngLoop, checkRandomRngLoop]
        exact List.mem_cons_of_mem _ (List.mem_cons_self _ _))

/-! ### Claim C6: restoration of the rounding mode -/
/-- C6 (amended): the `round_setup_t` destructor restores the saved rounding
mode on every path that actually leaves the scope (normal completion or
unwinding); a `std::exit` inside the scope terminates the process without
running the destructor, so the claimed restoration does not happen on the
fatal `first`-policy path. -/
theorem c6_restore_on_scope_exit (rnd : RMode)
    (body : RMode → RMode × Outcome) (cur : RMode)
    (h : ∀ c : ℕ, (body rnd).2 ≠ Outcome.exited c) :
    (withRoundSetup rnd body cur).1 = cur := by
  unfold withRoundSetup
  rcases hb : (body rnd).2 with _ | _ | c
  · simp [hb]
  · simp [hb]
  · exact absurd hb (h c)

/-- Witness for C6: a body that completes normally has the entry mode
restored. -/
theorem c6_witness :
    (withRoundSetup RMode.upward (fun r => (r, Outcome.normal))
      RMode.toNearest).1 = RMode.toNearest :=
  c6_restore_on_scope_exit RMode.upward (fun r => (r, Outcome.normal))
    RMode.toNearest (fun _ h => Outcome.noConfusion h)

/-- Counterexample for C6 as stated: a `first`-policy failure calls
`std::exit`, the destructor does not run, and the process terminates with
the pass's mode (here `FE_UPWARD`) still installed instead of the saved
`FE_TONEAREST`. -/
theorem c6_counterexample :
    withRoundSetup RMode.upward
        (passBody (checkR f32) FailMode.first
          [mkResultT f32 RMode.upward 0x4B000009 0x4B000000 0x41100000])
        RMode.toNearest
      = (RMode.upward, Outcome.exited EXIT_FAILURE)
    ∧ RMode.upward ≠ RMode.toNearest := by
  exact ⟨by decide, by decide⟩

/-! ### Claim C8: failure-policy semantics of the sampling loop -/
theorem runChecksGo_none_eq {α : Type} (chk : α → Bool) (key : α → ℕ)
    (l : List α) (h : Hist) (pr : List α) :
    runChecksGo chk key FailMode.none l h pr
      = ⟨l.foldl (fun h r => bump h (key r) 1) h, pr, Option.none⟩ := by
  induction l generalizing h with
  | nil => rfl
  | cons r rest ih => by_cases hc : chk r <;> simp [runChecksGo, hc, ih]

theorem runChecksGo_all_eq {α : Type} (chk : α → Bool) (key : α → ℕ)
    (l : List α) (h : Hist) (pr : List α) :
    runChecksGo chk key FailMode.all l h pr
      = ⟨l.foldl (fun h r => bump h (key r) 1) h,
          pr ++ l.filter (fun r => !chk r), Option.none⟩ := by
  induction l generalizing h pr with
  | nil => simp [runChecksGo]
  | cons r rest ih =>
      by_cases hc : chk r <;> simp [runChecksGo, hc, ih]

theorem runChecksGo_first_clean {α : Type} (chk : α → Bool) (key : α → ℕ)
    (l : List α) (h : Hist) (pr : List α) (hl : ∀ x ∈ l, chk x = true) :
    runChecksGo chk key FailMode.first l h pr
      = ⟨l.foldl (fun h r => bump h (key r) 1) h, pr, Option.none⟩ := by
  induction l generalizing h with
  | nil => rfl
  | cons r rest ih =>
      have hr : chk r = true := hl r (List.mem_cons_self _ _)
      simp only [runChecksGo, hr, if_pos]
      exact ih _ (fun x hx => hl x (List.mem_cons_of_mem _ hx))

theorem runChecksGo_first_fail {α : Type} (chk : α → Bool) (key : α → ℕ)
    (pre : List α) (r : α) (post : List α) (h : Hist) (pr : List α)
    (hpre : ∀ x ∈ pre, chk x = true) (hr : chk r = false) :
    runChecksGo chk key FailMode.first (pre ++ r :: post) h pr
      = ⟨pre.foldl (fun h x => bump h (key x) 1) h, pr ++ [r],
          some EXIT_FAILURE⟩ := by
  induction pre generalizing h with
  | nil => simp [runChecksGo, hr]
  | cons x rest ih =>
      have hx : chk x = true := hpre x (List.mem_cons_self _ _)
      simp only [List.cons_append, runChecksGo, hx, if_pos]
      exact ih _ (fun y hy => hpre y (List.mem_cons_of_mem _ hy))

theorem histOf_map {α : Type} (key : α → ℕ) (l : List α) :
    histOf (l.map key) = l.foldl (fun h r => bump h (key r) 1) [] := by
  rw [histOf, List.foldl_map]

/-- C8: accuracy violations never escape the loop as exceptions; they are
handled per failure policy.  Policy `none` merges every sample into the
histogram, prints nothing and the process exits 0.  Policy `all` prints
exactly the failing samples, still merges every sample, and exits 0.
Policy `first` stops at the first failing sample: it prints only that
sample, terminates the process immediately via `std::exit (EXIT_FAILURE)`
(a non-zero status) without merging it, and when no sample fails the run
completes with exit status 0. -/
theorem c8_failure_policies {α : Type} (chk : α → Bool) (key : α → ℕ)
    (l : List α) :
    (runChecks chk key FailMode.none l
        = ⟨histOf (l.map key), [], Option.none⟩
      ∧ processExitCode (runChecks chk key FailMode.none l) = 0)
    ∧ (runChecks chk key FailMode.all l
        = ⟨histOf (l.map key), l.filter (fun r => !chk r), Option.none⟩
      ∧ processExitCode (runChecks chk key FailMode.all l) = 0)
    ∧ (∀ pre r post, l = pre ++ r :: post → (∀ x ∈ pre, chk x = true) →
        chk r = false →
        runChecks chk key FailMode.first l
          = ⟨histOf (pre.map key), [r], some EXIT_FAILURE⟩
        ∧ processExitCode (runChecks chk key FailMode.first l) = EXIT_FAILURE
        ∧ EXIT_FAILURE ≠ 0)
    ∧ ((∀ x ∈ l, chk x = true) →
        runChecks chk key FailMode.first l
          = ⟨histOf (l.map key), [], Option.none⟩) := by
  refine ⟨⟨?_, ?_⟩, ⟨?_, ?_⟩, ?_, ?_⟩
  · simp only [runChecks]
    rw [runChecksGo_none_eq, histOf_map]
  · simp only [runChecks, processExitCode]
    rw [runChecksGo_none_eq]
  · simp only [runChecks]
    rw [runChecksGo_all_eq, histOf_map]
    simp
  · simp only [runChecks, processExitCode]
    rw [runChecksGo_all_eq]
  · intro pre r post hl hpre hr
    subst hl
    have hgo := runChecksGo_first_fail chk key pre r post [] [] hpre hr
    refine ⟨?_, ?_, by decide⟩
    · simp only [runChecks]
      rw [hgo, histOf_map]
      simp
    · simp only [runChecks, processExitCode]
      rw [hgo]
  · intro hl
    simp only [runChecks]
    rw [runChecksGo_first_clean _ _ _ _ _ hl, histOf_map]

/-- Witness for C8: the `first` policy on a three-sample run whose second
sample fails stops there with exit status `EXIT_FAILURE`. -/
theorem c8_witness :
    runChecks (fun n => decide (n ≠ 3)) (fun n => n) FailMode.first [1, 3, 4]
      = ⟨histOf ([1].map (fun n => n)), [3], some EXIT_FAILURE⟩ :=
  ((c8_failure_policies (fun n => decide (n ≠ 3)) (fun n => n)
      [1, 3, 4]).2.2.1 [1] 3 [4] rfl (by decide) (by decide)).1

theorem roundFromOptionGo_spec (ts : List String) (acc l : List RoundModeT)
    (h : roundFromOptionGo ts acc = .ok l) :
    (∃ suf, l = acc ++ suf
      ∧ ts.map (fun r => kRoundModes.find? (fun m => m.abbr == r))
          = suf.map some)
    ∧ ((acc.map RoundModeT.mode).Nodup → (l.map RoundModeT.mode).Nodup) := by
  induction ts generalizing acc with
  | nil =>
      rw [roundFromOptionGo] at h
      cases h
      exact ⟨⟨[], by simp⟩, fun hn => hn⟩
  | cons r rest ih =>
      rw [roundFromOptionGo] at h
      rcases hfind : kRoundModes.find? (fun m => m.abbr == r) with _ | m <;>
        rw [hfind] at h <;> dsimp only at h
      · exact Except.noConfusion h
      · by_cases hdup : acc.any (fun x => x.mode == m.mode)
        · rw [if_pos hdup] at h
          exact Except.noConfusion h
        · rw [if_neg hdup] at h
          obtain ⟨⟨suf, hl, hmap⟩, hnd⟩ := ih (acc ++ [m]) h
          refine ⟨⟨m :: suf, by simpa using hl, by simp [hfind, hmap]⟩, ?_⟩
          intro hacc
          apply hnd
          rw [List.map_append, List.nodup_append]
          refine ⟨hacc, by simp, ?_⟩
          simp only [List.any_eq_true, beq_iff_eq, not_exists, not_and] at hdup
          simp only [List.map_cons, List.map_nil, List.disjoint_cons_right,
            List.disjoint_nil_right, and_true]
          intro hmem
          obtain ⟨x, hx, hxm⟩ := List.mem_map.mp hmem
          exact hdup x hx hxm

/-- C7 (amended): `round_from_option` keeps the rounding modes in the order
in which their abbreviations appear in the option string (each token looked
up in `k_round_modes`, unknown tokens and duplicates rejected), and the
default option string parses to all four modes in the canonical order
`FE_TONEAREST, FE_UPWARD, FE_DOWNWARD, FE_TOWARDZERO`. -/
theorem c7_order_follows_option (s : String) (l : List RoundModeT)
    (h : roundFromOption s = .ok l) :
    ((splitWithRanges s ",").map
        (fun r => kRoundModes.find? (fun m => m.abbr == r)) = l.map some
      ∧ l.Nodup)
    ∧ roundFromOption defaultRoundOption = .ok kRoundModes := by
  obtain ⟨⟨suf, hl, hmap⟩, hnd⟩ :=
    roundFromOptionGo_spec (splitWithRanges s ",") [] l h
  refine ⟨⟨?_, ?_⟩, by decide⟩
  · rw [hmap, hl]
    simp
  · exact (hnd (by simp)).of_map

/-- Counterexample for C7 as stated: parsing `"rndu,rndn"` yields the modes
in option order, `FE_UPWARD` before `FE_TONEAREST` — not the canonical
order with `FE_TONEAREST` first. -/
theorem c7_counterexample :
    roundFromOption "rndu,rndn"
      = .ok [⟨"FE_UPWARD", "rndu", RMode.upward⟩,
             ⟨"FE_TONEAREST", "rndn", RMode.toNearest⟩]
    ∧ [RMode.upward, RMode.toNearest] ≠ [RMode.toNearest, RMode.upward] := by
  exact ⟨by decide, by decide⟩

/-- Witness for C7: parsing `"rndz,rndn"` keeps the option order. -/
theorem c7_witness :
    ((splitWithRanges "rndz,rndn" ",").map
        (fun r => kRoundModes.find? (fun m => m.abbr == r))
      = [(⟨"FE_TOWARDZERO", "rndz", RMode.towardZero⟩ : RoundModeT),
         ⟨"FE_TONEAREST", "rndn", RMode.toNearest⟩].map some
      ∧ ([(⟨"FE_TOWARDZERO", "rndz", RMode.towardZero⟩ : RoundModeT),
         ⟨"FE_TONEAREST", "rndn", RMode.toNearest⟩]).Nodup)
    ∧ roundFromOption defaultRoundOption = .ok kRoundModes :=
  c7_order_follows_option "rndz,rndn"
    [⟨"FE_TOWARDZERO", "rndz", RMode.towardZero⟩,
     ⟨"FE_TONEAREST", "rndn", RMode.toNearest⟩] (by decide)

/-! ### Claim C3: size of an ulp -/
/-- C3: for every normal bit pattern of a binary format (both `float` and
`double` instantiate this), `ulp (value)` is `2^(ilogb (value) -
(mantissa_bits - 1))` where `mantissa_bits` is the digit count including the
implicit bit; for every zero or subnormal pattern it is the smallest
positive subnormal magnitude of the format, the value of bit pattern 1.
NaN and infinity inputs are excluded by precondition (the hypotheses). -/
theorem c3_ulp_size (f : Fmt) (hmb : 1 ≤ f.mb) (u : ℕ) :
    (isNormal f u = true →
      ulpF f u = (2 : ℚ) ^ (ilogbF f u - ((Fmt.digits f : ℤ) - 1)))
    ∧ ((isZero f u = true ∨ isSubnormal f u = true) → ulpF f u = valF f 1) := by
  constructor
  · intro hn
    have h1 : expf f u ≠ 0 ∧ expf f u ≠ 2 ^ f.eb - 1 := by
      simpa [isNormal, bne_iff_ne] using hn
    have hcl : fpclassifyF f u = .normal := by
      rw [fpclassifyF, if_neg h1.1, if_neg h1.2]
    simp only [ulpF, ulpExp, hcl, ldexpQ, pow2_eq_zpow, one_mul]
    congr 1
    push_cast [Fmt.digits]
    ring
  · intro hz
    have he : expf f u = 0 := by
      rcases hz with h | h
      · simp only [isZero, Bool.and_eq_true, beq_iff_eq] at h
        exact h.1
      · simp only [isSubnormal, Bool.and_eq_true, beq_iff_eq, bne_iff_ne] at h
        exact h.1
    have h2 : (1 : ℕ) < 2 ^ (f.eb + f.mb) := Nat.one_lt_pow (by omega) (by norm_num)
    have h3 : (1 : ℕ) < 2 ^ f.mb := Nat.one_lt_pow (by omega) (by norm_num)
    have hs : signB f 1 = 0 := by
      unfold signB
      exact Nat.div_eq_of_lt h2
    have he1 : expf f 1 = 0 := by
      unfold expf
      rw [Nat.div_eq_of_lt h3]
      simp
    have hm1 : mant f 1 = 1 := by
      unfold mant
      exact Nat.mod_eq_of_lt h3
    have hcl : ulpExp f u = Fmt.minExponent f - Fmt.digits f := by
      rw [ulpExp, fpclassifyF, if_pos he]
      by_cases hm : mant f u = 0 <;> simp [hm]
    rw [ulpF, hcl, valF, valD, ldexpQ]
    simp [hs, he1, hm1, dval]

/-- Witness for C3: `ulp (1.0f) = 2^-23` via the normal branch, and
`ulp` of the smallest positive subnormal equals that subnormal itself. -/
theorem c3_witness :
    (isNormal f32 0x3F800000 = true
      ∧ ulpF f32 0x3F800000
          = (2 : ℚ) ^ (ilogbF f32 0x3F800000 - ((Fmt.digits f32 : ℤ) - 1)))
    ∧ (isSubnormal f32 0x00000001 = true ∧ ulpF f32 0x00000001 = valF f32 1) :=
  ⟨⟨by decide, (c3_ulp_size f32 (by decide) 0x3F800000).1 (by decide)⟩,
   ⟨by decide, (c3_ulp_size f32 (by decide) 0x00000001).2 (Or.inr (by decide))⟩⟩

/-! ### Claim C2: `result_t::check_full` -/
/-- C2: for every pair of bit patterns, `check_full` is false when either
value is a signaling NaN (in the specification sense: a NaN with clear
quiet bit); otherwise true when both are NaN; otherwise, when both are
infinite, true exactly when the sign bits agree; otherwise false when
exactly one of the two is infinite or NaN; otherwise it returns `check`,
the clamped-ULP threshold test. -/
theorem c2_check_full (f : Fmt) (hf : f = f32 ∨ f = f64) (m : RMode)
    (c e mx : ℕ) (hc : c < 2 ^ Fmt.w f) (he : e < 2 ^ Fmt.w f) :
    checkFullR f (mkResultT f m c e mx)
      = if isSignalingSpec f c || isSignalingSpec f e then false
        else if isNan f c && isNan f e then true
        else if isInf f c && isInf f e then
          (signB f c % 2 == signB f e % 2)
        else if isInf f c || isNan f c || isInf f e || isNan f e then false
        else checkR f (mkResultT f m c e mx) := by
  have hsc : issignaling f c = isSignalingSpec f c := by
    rcases hf with h | h <;> subst h
    · exact issignaling_eq_f32 c (by simpa [Fmt.w, f32] using hc)
    · exact issignaling_eq_f64 c (by simpa [Fmt.w, f64] using hc)
  have hse : issignaling f e = isSignalingSpec f e := by
    rcases hf with h | h <;> subst h
    · exact issignaling_eq_f32 e (by simpa [Fmt.w, f32] using he)
    · exact issignaling_eq_f64 e (by simpa [Fmt.w, f64] using he)
  show (if issignaling f c || issignaling f e then false
        else if isNan f c && isNan f e then true
        else if isInf f c && isInf f e then
          (signB f c % 2 == signB f e % 2)
        else if isInf f c || isNan f c || isInf f e || isNan f e then false
        else checkR f (mkResultT f m c e mx)) = _
  rw [hsc, hse]

/-- Witness for C2: the five concrete cases named by the claim, plus one
instantiation of the case analysis at the (NaN, 5.0) pair.  Bit patterns:
quiet NaN `0x7FC00000`, signaling NaN `0x7FA00000`, infinities
`0x7F800000`/`0xFF800000`, `5.0f = 0x40A00000`, threshold `9.0f =
0x41100000`. -/
theorem c2_witness :
    checkFullR f32 (mkResultT f32 .toNearest 0x7FC00000 0x7FC00000 0x41100000)
        = true
    ∧ checkFullR f32 (mkResultT f32 .toNearest 0x7F800000 0x7F800000 0x41100000)
        = true
    ∧ checkFullR f32 (mkResultT f32 .toNearest 0x7F800000 0xFF800000 0x41100000)
        = false
    ∧ checkFullR f32 (mkResultT f32 .toNearest 0x7FC00000 0x40A00000 0x41100000)
        = false
    ∧ checkFullR f32 (mkResultT f32 .toNearest 0x7FA00000 0x40A00000 0x41100000)
        = false
    ∧ checkFullR f32 (mkResultT f32 .toNearest 0x7FC00000 0x40A00000 0x41100000)
        = if isSignalingSpec f32 0x7FC00000 || isSignalingSpec f32 0x40A00000
            then false
          else if isNan f32 0x7FC00000 && isNan f32 0x40A00000 then true
          else if isInf f32 0x7FC00000 && isInf f32 0x40A00000 then
            (signB f32 0x7FC00000 % 2 == signB f32 0x40A00000 % 2)
          else if isInf f32 0x7FC00000 || isNan f32 0x7FC00000
              || isInf f32 0x40A00000 || isNan f32 0x40A00000 then false
          else checkR f32 (mkResultT f32 .toNearest 0x7FC00000 0x40A00000
            0x41100000) :=
  ⟨by decide, by decide, by decide, by decide, by decide,
   c2_check_full f32 (Or.inl rfl) .toNearest 0x7FC00000 0x40A00000 0x41100000
     (by decide) (by decide)⟩

/-! ### Bridging the dyadic comparisons to rational values -/
theorem dLt_eq (a b : Dyadic) : dLt a b = decide (dval a < dval b) := by
  have h2 : (0 : ℚ) < 2 := by norm_num
  have hne : (2 : ℚ) ≠ 0 := by norm_num
  by_cases h : a.2 ≤ b.2
  · have hn : (((2 ^ (b.2 - a.2).toNat : ℕ) : ℤ) : ℚ) = (2 : ℚ) ^ (b.2 - a.2) := by
      push_cast
      rw [← zpow_natCast, Int.toNat_of_nonneg (by omega)]
    rw [dLt, if_pos h]
    apply decide_eq_decide.mpr
    simp only [dval, pow2_eq_zpow]
    have hb : (2 : ℚ) ^ b.2 = 2 ^ (b.2 - a.2) * 2 ^ a.2 := by
      rw [← zpow_add₀ hne]
      congr 1
      ring
    conv_rhs => rw [hb, ← mul_assoc]
    rw [mul_lt_mul_right (zpow_pos h2 a.2), ← hn]
    rw [show ((b.1 : ℚ) * (((2 ^ (b.2 - a.2).toNat : ℕ) : ℤ) : ℚ))
        = (((b.1 * ((2 ^ (b.2 - a.2).toNat : ℕ) : ℤ) : ℤ)) : ℚ) by push_cast; ring]
    rw [Int.cast_lt]
  · have h' : b.2 ≤ a.2 := by omega
    have hn : (((2 ^ (a.2 - b.2).toNat : ℕ) : ℤ) : ℚ) = (2 : ℚ) ^ (a.2 - b.2) := by
      push_cast
      rw [← zpow_natCast, Int.toNat_of_nonneg (by omega)]
    rw [dLt, if_neg h]
    apply decide_eq_decide.mpr
    simp only [dval, pow2_eq_zpow]
    have ha : (2 : ℚ) ^ a.2 = 2 ^ (a.2 - b.2) * 2 ^ b.2 := by
      rw [← zpow_add₀ hne]
      congr 1
      ring
    conv_rhs => rw [ha, ← mul_assoc]
    rw [mul_lt_mul_right (zpow_pos h2 b.2), ← hn]
    rw [show ((a.1 : ℚ) * (((2 ^ (a.2 - b.2).toNat : ℕ) : ℤ) : ℚ))
        = (((a.1 * ((2 ^ (a.2 - b.2).toNat : ℕ) : ℤ) : ℤ)) : ℚ) by push_cast; ring]
    rw [Int.cast_lt]

theorem isNan_eq_false (f : Fmt) (u : ℕ) (h : isFinite f u = true) :
    isNan f u = false := by
  simp only [isFinite, bne_iff_ne, ne_eq] at h
  simp [isNan, h]

theorem isInf_eq_false (f : Fmt) (u : ℕ) (h : isFinite f u = true) :
    isInf f u = false := by
  simp only [isFinite, bne_iff_ne, ne_eq] at h
  simp [isInf, h]

theorem isFinite_eq_false_of_nan (f : Fmt) (u : ℕ) (h : isNan f u = true) :
    isFinite f u = false := by
  simp only [isNan, Bool.and_eq_true, beq_iff_eq, bne_iff_ne] at h
  simp [isFinite, h.1]

theorem isFinite_eq_false_of_inf (f : Fmt) (u : ℕ) (h : isInf f u = true) :
    isFinite f u = false := by
  simp only [isInf, Bool.and_eq_true, beq_iff_eq] at h
  simp [isFinite, h.1]

theorem fltB_fin (f : Fmt) (a b : ℕ) (ha : isFinite f a = true)
    (hb : isFinite f b = true) :
    fltB f a b = decide (valF f a < valF f b) := by
  rw [fltB, isNan_eq_false f a ha, isNan_eq_false f b hb, extValD, extValD,
    if_neg (by simp [isInf_eq_false f a ha]),
    if_neg (by simp [isInf_eq_false f b hb])]
  simp only [Bool.not_false, Bool.true_and, evLt]
  exact dLt_eq _ _

theorem fgeB_fin (f : Fmt) (a b : ℕ) (ha : isFinite f a = true)
    (hb : isFinite f b = true) :
    fgeB f a b = decide (valF f b ≤ valF f a) := by
  rw [fgeB, isNan_eq_false f a ha, isNan_eq_false f b hb, extValD, extValD,
    if_neg (by simp [isInf_eq_false f a ha]),
    if_neg (by simp [isInf_eq_false f b hb])]
  simp only [Bool.not_false, Bool.true_and, evLt, dLt_eq]
  rw [← decide_not]
  apply decide_eq_decide.mpr
  exact not_lt

theorem expf_zero (f : Fmt) : expf f 0 = 0 := by
  simp [expf]

theorem isFinite_zero (f : Fmt) (heb : 1 ≤ f.eb) : isFinite f 0 = true := by
  have h2 : (2 : ℕ) ≤ 2 ^ f.eb := by
    calc (2 : ℕ) = 2 ^ 1 := by norm_num
    _ ≤ 2 ^ f.eb := Nat.pow_le_pow_right (by norm_num) heb
  simp only [isFinite, expf_zero, bne_iff_ne, ne_eq]
  omega

theorem valF_zero (f : Fmt) : valF f 0 = 0 := by
  simp [valF, valD, dval, signB, expf, mant]

/-! ### Claim C4: the clamped threshold test of `result_t` -/
/-- C4 (amended): with a finite threshold `max` of value 9, the stored
`ulp` field of `result_t` is the float-computed `ulpdiff (computed,
expected)` clamped from above to `max` with a NaN or infinite `ulpdiff`
replaced by 0; and `check ()` returns false exactly when the computed
`ulpdiff` is finite and at least 9 (when it overflows to infinity - e.g.
computed = FLT_MAX, expected = -FLT_MAX - it is replaced by 0 and
`check ()` returns true even though the exact difference exceeds
`9 * ulp (expected)`, see the counterexample). -/
theorem c4_check_clamped (f : Fmt) (heb : 1 ≤ f.eb) (m : RMode) (c e mx : ℕ)
    (hmxf : isFinite f mx = true) (hmx9 : valF f mx = 9) :
    ((isNan f (ulpdiffF f m c e) = true ∨ isInf f (ulpdiffF f m c e) = true) →
      (mkResultT f m c e mx).ulpb = 0)
    ∧ (isFinite f (ulpdiffF f m c e) = true →
      (mkResultT f m c e mx).ulpb
        = if 9 ≤ valF f (ulpdiffF f m c e) then mx else ulpdiffF f m c e)
    ∧ (checkR f (mkResultT f m c e mx) = false
        ↔ isFinite f (ulpdiffF f m c e) = true
          ∧ 9 ≤ valF f (ulpdiffF f m c e)) := by
  have hulpb : (mkResultT f m c e mx).ulpb
      = (if fgeB f (if isNan f (ulpdiffF f m c e) || isInf f (ulpdiffF f m c e)
            then 0 else ulpdiffF f m c e) mx then mx
         else if isNan f (ulpdiffF f m c e) || isInf f (ulpdiffF f m c e)
            then 0 else ulpdiffF f m c e) := rfl
  have hfge0 : fgeB f 0 mx = false := by
    rw [fgeB_fin f 0 mx (isFinite_zero f heb) hmxf, valF_zero, hmx9]
    norm_num
  have conj1 : (isNan f (ulpdiffF f m c e) = true
      ∨ isInf f (ulpdiffF f m c e) = true) → (mkResultT f m c e mx).ulpb = 0 := by
    intro h
    rw [hulpb]
    rcases h with h | h <;> simp [h, hfge0]
  have conj2 : isFinite f (ulpdiffF f m c e) = true →
      (mkResultT f m c e mx).ulpb
        = if 9 ≤ valF f (ulpdiffF f m c e) then mx else ulpdiffF f m c e := by
    intro hfin
    rw [hulpb, isNan_eq_false _ _ hfin, isInf_eq_false _ _ hfin]
    rw [show (if ((false || false) = true) then (0 : ℕ) else ulpdiffF f m c e)
        = ulpdiffF f m c e by norm_num]
    rw [fgeB_fin f _ mx hfin hmxf, hmx9]
    by_cases h9 : 9 ≤ valF f (ulpdiffF f m c e) <;> simp [h9]
  refine ⟨conj1, conj2, ?_⟩
  by_cases hfin : isFinite f (ulpdiffF f m c e) = true
  · by_cases h9 : 9 ≤ valF f (ulpdiffF f m c e)
    · show fltB f (mkResultT f m c e mx).ulpb mx = false ↔ _
      rw [conj2 hfin, if_pos h9, fltB_fin f mx mx hmxf hmxf]
      simp [hfin, h9]
    · show fltB f (mkResultT f m c e mx).ulpb mx = false ↔ _
      rw [conj2 hfin, if_neg h9, fltB_fin f _ mx hfin hmxf, hmx9]
      simp [hfin, not_lt, h9]
  · have hnf : isNan f (ulpdiffF f m c e) = true
        ∨ isInf f (ulpdiffF f m c e) = true := by
      simp only [isFinite, bne_iff_ne, ne_eq, Bool.not_eq_true] at hfin
      simp only [isNan, isInf, Bool.and_eq_true, beq_iff_eq, bne_iff_ne, ne_eq]
      by_cases hm : mant f (ulpdiffF f m c e) = 0
      · right
        constructor
        · omega
        · simpa using hm
      · left
        exact ⟨by omega, hm⟩
    show fltB f (mkResultT f m c e mx).ulpb mx = false ↔ _
    rw [conj1 hnf, fltB_fin f 0 mx (isFinite_zero f heb) hmxf, valF_zero, hmx9]
    simp [hfin]

/-- Counterexample for C4 as stated: at computed = FLT_MAX, expected =
-FLT_MAX (round to nearest, max = 9.0f), the float subtraction overflows to
infinity, the ulpdiff is replaced by 0 and `check ()` returns true, although
the exact difference `2 * FLT_MAX` is far larger than `9 * ulp
(expected)` - so `check ()` does not return false exactly when
`|computed - expected| >= 9 * ulp (expected)`. -/
theorem c4_counterexample :
    checkR f32 (mkResultT f32 .toNearest 0x7F7FFFFF 0xFF7FFFFF 0x41100000)
        = true
    ∧ isInf f32 (ulpdiffF f32 .toNearest 0x7F7FFFFF 0xFF7FFFFF) = true
    ∧ valF f32 0x41100000 = 9
    ∧ 9 * ulpF f32 0xFF7FFFFF ≤ valF f32 0x7F7FFFFF - valF f32 0xFF7FFFFF := by
  refine ⟨by decide, by decide, ?_, ?_⟩
  · norm_num [valF, valD, dval, signB, expf, mant, f32, Fmt.bias, Fmt.digits,
      Fmt.minExponent, pow2_eq_zpow]
  · norm_num [valF, valD, dval, signB, expf, mant, ulpF, ulpExp, ldexpQ,
      fpclassifyF, ilogbF, f32, Fmt.bias, Fmt.digits, Fmt.minExponent,
      pow2_eq_zpow]

/-- Witness for C4: at one ulp of distance (computed `1.0f + 2^-23`,
expected `1.0f`) the stored ulp is the unclamped distance and `check`
passes. -/
theorem c4_witness :
    (mkResultT f32 .toNearest 0x3F800001 0x3F800000 0x41100000).ulpb
        = (if (9 : ℚ) ≤ valF f32 (ulpdiffF f32 .toNearest 0x3F800001 0x3F800000)
           then 0x41100000 else ulpdiffF f32 .toNearest 0x3F800001 0x3F800000) :=
  (c4_check_clamped f32 (by decide) .toNearest 0x3F800001 0x3F800000
      0x41100000 (by decide)
      (by norm_num [valF, valD, dval, signB, expf, mant, f32, Fmt.bias,
        Fmt.digits, Fmt.minExponent, pow2_eq_zpow])).2.1 (by decide)

/-! ### Claim C10: the two-output `check_full` -/
theorem isNan_eq_false_of_inf (f : Fmt) (u : ℕ) (h : isInf f u = true) :
    isNan f u = false := by
  simp only [isInf, Bool.and_eq_true, beq_iff_eq] at h
  simp [isNan, h.2]

theorem isInf_eq_false_of_nan (f : Fmt) (u : ℕ) (h : isNan f u = true) :
    isInf f u = false := by
  simp only [isNan, Bool.and_eq_true, beq_iff_eq, bne_iff_ne, ne_eq] at h
  simp [isInf, h.2]

/-- A NaN operand (of either side) makes `calc_ulp` return 0: the
subtraction yields a quiet NaN, whose ulpdiff is replaced by 0. -/
theorem calcUlp_nan (f : Fmt) (habs : absF f (qnanBits f) = qnanBits f)
    (hqn : isNan f (qnanBits f) = true) (m : RMode) (mx c e : ℕ)
    (h : isNan f c = true ∨ isNan f e = true) : calcUlp f m mx c e = 0 := by
  have hsub : subF f m c e = qnanBits f := by
    rcases h with h | h <;> simp [subF, h]
  simp [calcUlp, ulpdiffF, hsub, habs, divUlpF, hqn]

/-- An infinite `expected` against a finite `computed` makes `calc_ulp`
return 0: the subtraction yields an infinity, whose ulpdiff is replaced by
0. -/
theorem calcUlp_inf_e (f : Fmt)
    (habsi : ∀ b, absF f (infBits f b) = infBits f false)
    (hii : isInf f (infBits f false) = true)
    (hni : isNan f (infBits f false) = false) (m : RMode) (mx c e : ℕ)
    (hc : isFinite f c = true) (he : isInf f e = true) :
    calcUlp f m mx c e = 0 := by
  have hsub : subF f m c e = infBits f (signB f e % 2 = 0) := by
    simp [subF, isNan_eq_false f c hc, isNan_eq_false_of_inf f e he,
      isInf_eq_false f c hc, he]
  simp [calcUlp, ulpdiffF, hsub, habsi, divUlpF, hni, hii]

/-- An infinite `computed` against a finite `expected` makes `calc_ulp`
return 0. -/
theorem calcUlp_inf_c (f : Fmt) (hii : isInf f (infBits f false) = true)
    (hni : isNan f (infBits f false) = false) (m : RMode) (mx c e : ℕ)
    (habsc : absF f c = infBits f false)
    (hc : isInf f c = true) (he : isFinite f e = true) :
    calcUlp f m mx c e = 0 := by
  have hsub : subF f m c e = c := by
    simp [subF, isNan_eq_false_of_inf f c hc, isNan_eq_false f e he,
      isInf_eq_false f e he, hc]
  simp [calcUlp, ulpdiffF, hsub, habsc, divUlpF, hni, hii]

theorem absF_inf_f32 (c : ℕ) (_hc : c < 2 ^ 32) (h : isInf f32 c = true) :
    absF f32 c = infBits f32 false := by
  simp only [isInf, Bool.and_eq_true, beq_iff_eq, expf, mant, f32] at h
  unfold absF infBits f32
  norm_num at h ⊢
  omega

set_option maxRecDepth 100000 in
theorem absF_inf_f64 (c : ℕ) (_hc : c < 2 ^ 64) (h : isInf f64 c = true) :
    absF f64 c = infBits f64 false := by
  simp only [isInf, Bool.and_eq_true, beq_iff_eq, expf, mant, f64] at h
  unfold absF infBits f64
  norm_num at h ⊢
  omega

/-- The `calc_ulp` contribution of a pair with exactly one NaN or infinite
member is 0, for both instantiated formats. -/
theorem calcUlp_mixed (f : Fmt) (hf : f = f32 ∨ f = f64) (m : RMode)
    (mx c e : ℕ) (hc : c < 2 ^ Fmt.w f) (he : e < 2 ^ Fmt.w f)
    (h : ((isNan f c || isInf f c) = true ∧ isFinite f e = true)
      ∨ (isFinite f c = true ∧ (isNan f e || isInf f e) = true)) :
    calcUlp f m mx c e = 0 := by
  rcases hf with hfq | hfq <;> subst hfq
  · rcases h with ⟨hce, hef⟩ | ⟨hcf, hee⟩
    · rcases Bool.or_eq_true_iff.mp hce with hn | hi
      · exact calcUlp_nan f32 (by decide) (by decide) m mx c e (Or.inl hn)
      · exact calcUlp_inf_c f32 (by decide) (by decide) m mx c e
          (absF_inf_f32 c (by simpa [Fmt.w, f32] using hc) hi) hi hef
    · rcases Bool.or_eq_true_iff.mp hee with hn | hi
      · exact calcUlp_nan f32 (by decide) (by decide) m mx c e (Or.inr hn)
      · exact calcUlp_inf_e f32 (by decide) (by decide) (by decide) m mx c e
          hcf hi
  · rcases h with ⟨hce, hef⟩ | ⟨hcf, hee⟩
    · rcases Bool.or_eq_true_iff.mp hce with hn | hi
      · exact calcUlp_nan f64
          (by set_option maxRecDepth 1000000 in decide)
          (by set_option maxRecDepth 1000000 in decide) m mx c e (Or.inl hn)
      · exact calcUlp_inf_c f64
          (by set_option maxRecDepth 1000000 in decide)
          (by set_option maxRecDepth 1000000 in decide) m mx c e
          (absF_inf_f64 c (by simpa [Fmt.w, f64] using hc) hi) hi hef
    · rcases Bool.or_eq_true_iff.mp hee with hn | hi
      · exact calcUlp_nan f64
          (by set_option maxRecDepth 1000000 in decide)
          (by set_option maxRecDepth 1000000 in decide) m mx c e (Or.inr hn)
      · exact calcUlp_inf_e f64
          (by set_option maxRecDepth 1000000 in decide)
          (by set_option maxRecDepth 1000000 in decide)
          (by set_option maxRecDepth 1000000 in decide) m mx c e hcf hi

/-- C10: for `result_f_fp_fp_t` (sincos-like functions), (1) `check_full`
never depends on whether `expected1` is a signaling NaN - the source tests
`computed1`, `computed2` and `expected2` (twice), never `expected1`, so
replacing a NaN `expected1` by any other NaN cannot change the result; (2)
whenever no tested operand is signaling and the pairs are not all-NaN and
not all-infinite, `check_full` returns the clamped-ULP threshold test
`check`, including when exactly one member of a pair is infinite or NaN;
(3) in that mixed case the per-pair `calc_ulp` contribution is 0. -/
theorem c10_two_output_check_full (f : Fmt) (hf : f = f32 ∨ f = f64)
    (m : RMode) (i c1 c2 e1 e1x e2 mx : ℕ)
    (hc1 : c1 < 2 ^ Fmt.w f) (hc2 : c2 < 2 ^ Fmt.w f)
    (he1 : e1 < 2 ^ Fmt.w f) (he2 : e2 < 2 ^ Fmt.w f) :
    (isNan f e1 = true → isNan f e1x = true →
      checkFull2 f (mkResultFpFp f m i c1 c2 e1 e2 mx)
        = checkFull2 f (mkResultFpFp f m i c1 c2 e1x e2 mx))
    ∧ (isSignalingSpec f c1 = false → isSignalingSpec f c2 = false →
       isSignalingSpec f e2 = false →
       ((isNan f c1 && isNan f e1) && (isNan f c2 && isNan f e2)) = false →
       ((isInf f c1 && isInf f e1) && (isInf f c2 && isInf f e2)) = false →
       checkFull2 f (mkResultFpFp f m i c1 c2 e1 e2 mx)
         = check2 f (mkResultFpFp f m i c1 c2 e1 e2 mx))
    ∧ (((isNan f c1 || isInf f c1) = true ∧ isFinite f e1 = true)
        ∨ (isFinite f c1 = true ∧ (isNan f e1 || isInf f e1) = true) →
       calcUlp f m mx c1 e1 = 0) := by
  have hq : absF f (qnanBits f) = qnanBits f
      ∧ isNan f (qnanBits f) = true := by
    rcases hf with h | h <;> subst h
    · exact ⟨by decide, by decide⟩
    · exact ⟨by set_option maxRecDepth 1000000 in decide,
        by set_option maxRecDepth 1000000 in decide⟩
  refine ⟨?_, ?_, fun h => calcUlp_mixed f hf m mx c1 e1 hc1 he1 h⟩
  · intro hn hnx
    have h0 : calcUlp f m mx c1 e1 = 0 :=
      calcUlp_nan f hq.1 hq.2 m mx c1 e1 (Or.inr hn)
    have h0x : calcUlp f m mx c1 e1x = 0 :=
      calcUlp_nan f hq.1 hq.2 m mx c1 e1x (Or.inr hnx)
    simp only [checkFull2, mkResultFpFp, check2]
    rw [h0, h0x, hn, hnx, isInf_eq_false_of_nan f e1 hn,
      isInf_eq_false_of_nan f e1x hnx]
    simp
  · intro hs1 hs2 hs3 hnan hinf
    have hsig : issignaling f c1 = false ∧ issignaling f c2 = false
        ∧ issignaling f e2 = false := by
      rcases hf with h | h <;> subst h
      · exact ⟨(issignaling_eq_f32 c1 (by simpa [Fmt.w, f32] using hc1)).trans
            hs1,
          (issignaling_eq_f32 c2 (by simpa [Fmt.w, f32] using hc2)).trans hs2,
          (issignaling_eq_f32 e2 (by simpa [Fmt.w, f32] using he2)).trans hs3⟩
      · exact ⟨(issignaling_eq_f64 c1 (by simpa [Fmt.w, f64] using hc1)).trans
            hs1,
          (issignaling_eq_f64 c2 (by simpa [Fmt.w, f64] using hc2)).trans hs2,
          (issignaling_eq_f64 e2 (by simpa [Fmt.w, f64] using he2)).trans hs3⟩
    simp only [checkFull2, mkResultFpFp, check2]
    rw [hsig.1, hsig.2.1, hsig.2.2, hnan, hinf]
    simp

/-- Witness for C10: (1) an infinite `computed1` against the finite
`expected1 = 5.0f` contributes 0 ulps; (2) replacing a signaling-NaN
`expected1` by a quiet NaN does not change `check_full`. -/
theorem c10_witness :
    calcUlp f32 RMode.toNearest 0x41100000 0x7F800000 0x40A00000 = 0
    ∧ checkFull2 f32 (mkResultFpFp f32 RMode.toNearest 1 3 4 0x7FA00000 5
          0x41100000)
        = checkFull2 f32 (mkResultFpFp f32 RMode.toNearest 1 3 4 0x7FC00000 5
          0x41100000) :=
  ⟨(c10_two_output_check_full f32 (Or.inl rfl) RMode.toNearest 0 0x7F800000 0
      0x40A00000 0 0 0x41100000 (by decide) (by decide) (by decide)
      (by decide)).2.2 (Or.inl ⟨by decide, by decide⟩),
   (c10_two_output_check_full f32 (Or.inl rfl) RMode.toNearest 1 3 4
      0x7FA00000 0x7FC00000 5 0x41100000 (by decide) (by decide) (by decide)
      (by decide)).1 (by decide) (by decide)⟩

theorem hLookup_eq_zero_of_lt (h : Hist) (k : ℕ) (hs : HSorted h)
    (hk : ∀ p ∈ h, k < p.1) : hLookup h k = 0 := by
  induction h with
  | nil => rfl
  | cons p t ih =>
      obtain ⟨k1, v1⟩ := p
      rw [hLookup]
      rw [if_neg (by have := hk (k1, v1) (List.mem_cons_self _ _); omega)]
      exact ih hs.tail (fun q hq => hk q (List.mem_cons_of_mem _ hq))

theorem HSorted.head_lt (h : Hist) (k1 : ℕ) (v1 : ℕ)
    (hs : HSorted ((k1, v1) :: h)) : ∀ p ∈ h, k1 < p.1 := by
  intro p hp
  induction h generalizing k1 v1 with
  | nil => cases hp
  | cons q t ih =>
      obtain ⟨qk, qv⟩ := q
      rcases List.mem_cons.mp hp with h | h
      · rw [h]
        exact (List.chain'_cons.mp hs).1
      · have h2 : k1 < qk := (List.chain'_cons.mp hs).1
        have h3 := ih qk qv (List.chain'_cons.mp hs).2 h
        omega

theorem hLookup_bump (h : Hist) (k v k' : ℕ) (hs : HSorted h) :
    hLookup (bump h k v) k' = hLookup h k' + (if k' = k then v else 0) := by
  induction h with
  | nil =>
      by_cases hk : k' = k <;> simp [bump, hLookup, hk]
  | cons p t ih =>
      obtain ⟨k1, v1⟩ := p
      rw [bump]
      by_cases h1 : k < k1
      · rw [if_pos h1, hLookup]
        by_cases hk : k' = k
        · subst hk
          rw [if_pos rfl, hLookup, if_neg (by omega)]
          rw [hLookup_eq_zero_of_lt t k' hs.tail
            (fun q hq => by have := HSorted.head_lt t k1 v1 hs q hq; omega)]
          simp
        · rw [if_neg hk, hLookup]
          simp [hk]
      · by_cases h2 : k = k1
        · rw [if_neg h1, if_pos h2, hLookup, hLookup]
          subst h2
          by_cases hk : k' = k <;> simp [hk]
        · rw [if_neg h1, if_neg h2, hLookup, hLookup]
          by_cases hk1 : k' = k1
          · rw [if_pos hk1, if_pos hk1]
            rw [show (if k' = k then v else 0) = 0 by
              rw [if_neg (by omega)]]
            omega
          · rw [if_neg hk1, if_neg hk1, ih hs.tail]

theorem bump_head_key (t : Hist) (k v : ℕ) :
    ∀ p, (bump t k v).head? = some p →
      p.1 = k ∨ ∃ q, t.head? = some q ∧ p.1 = q.1 := by
  intro p hp
  match t with
  | [] =>
      rw [bump] at hp
      simp at hp
      left
      rw [← hp]
  | (k1, v1) :: t' =>
      rw [bump] at hp
      by_cases h1 : k < k1
      · rw [if_pos h1] at hp
        simp at hp
        left
        rw [← hp]
      · by_cases h2 : k = k1
        · rw [if_neg h1, if_pos h2] at hp
          simp at hp
          right
          exact ⟨(k1, v1), rfl, by rw [← hp]⟩
        · rw [if_neg h1, if_neg h2] at hp
          simp at hp
          right
          exact ⟨(k1, v1), rfl, by rw [← hp]⟩

theorem bump_sorted (h : Hist) (k v : ℕ) (hs : HSorted h) :
    HSorted (bump h k v) := by
  induction h with
  | nil => exact List.chain'_singleton _
  | cons p t ih =>
      obtain ⟨k1, v1⟩ := p
      rw [bump]
      by_cases h1 : k < k1
      · rw [if_pos h1]
        exact List.Chain'.cons h1 hs
      · by_cases h2 : k = k1
        · rw [if_neg h1, if_pos h2]
          exact List.chain'_cons'.mpr
            ⟨fun q hq => (List.chain'_cons'.mp hs).1 q hq,
             (List.chain'_cons'.mp hs).2⟩
        · rw [if_neg h1, if_neg h2]
          apply List.chain'_cons'.mpr
          refine ⟨?_, ih hs.tail⟩
          intro q hq
          rcases bump_head_key t k v q hq with hk | ⟨q', hq', hkk⟩
          · omega
          · rw [hkk]
            have := HSorted.head_lt t k1 v1 hs
            exact this q' (by
              match t, hq' with
              | r :: t', h => cases h; exact List.mem_cons_self _ _)

theorem bump_pos (h : Hist) (k v : ℕ) (hv : 0 < v) (hp : HPos h) :
    HPos (bump h k v) := by
  induction h with
  | nil =>
      intro p hp'
      rw [bump] at hp'
      simp at hp'
      rw [hp']
      exact hv
  | cons q t ih =>
      obtain ⟨k1, v1⟩ := q
      intro p hp'
      rw [bump] at hp'
      by_cases h1 : k < k1
      · rw [if_pos h1] at hp'
        rcases List.mem_cons.mp hp' with h | h
        · rw [h]; exact hv
        · exact hp p h
      · by_cases h2 : k = k1
        · rw [if_neg h1, if_pos h2] at hp'
          rcases List.mem_cons.mp hp' with h | h
          · rw [h]
            have := hp (k1, v1) (List.mem_cons_self _ _)
            simp at this ⊢
            omega
          · exact hp p (List.mem_cons_of_mem _ h)
        · rw [if_neg h1, if_neg h2] at hp'
          rcases List.mem_cons.mp hp' with h | h
          · exact hp p (h ▸ List.mem_cons_self _ _)
          · exact ih (fun q hq => hp q (List.mem_cons_of_mem _ hq)) p h

theorem ulpaccReduction_cons (a : Hist) (p : ℕ × ℕ) (t : Hist) :
    ulpaccReduction a (p :: t) = ulpaccReduction (bump a p.1 p.2) t := rfl

theorem ulpaccReduction_sorted (b a : Hist) (ha : HSorted a) :
    HSorted (ulpaccReduction a b) := by
  induction b generalizing a with
  | nil => exact ha
  | cons p t ih =>
      rw [ulpaccReduction_cons]
      exact ih _ (bump_sorted a p.1 p.2 ha)

theorem ulpaccReduction_pos (b a : Hist) (ha : HPos a) (hb : HPos b) :
    HPos (ulpaccReduction a b) := by
  induction b generalizing a with
  | nil => exact ha
  | cons p t ih =>
      rw [ulpaccReduction_cons]
      exact ih _ (bump_pos a p.1 p.2 (hb p (List.mem_cons_self _ _)) ha)
        (fun q hq => hb q (List.mem_cons_of_mem _ hq))

theorem hLookup_ulpaccReduction (b a : Hist) (ha : HSorted a)
    (hb : HSorted b) (k : ℕ) :
    hLookup (ulpaccReduction a b) k = hLookup a k + hLookup b k := by
  induction b generalizing a with
  | nil => simp [ulpaccReduction, hLookup]
  | cons p t ih =>
      obtain ⟨k1, v1⟩ := p
      rw [ulpaccReduction_cons]
      rw [ih _ (bump_sorted a k1 v1 ha) hb.tail]
      rw [hLookup_bump a k1 v1 k ha, hLookup]
      by_cases hk : k = k1
      · subst hk
        rw [hLookup_eq_zero_of_lt t k hb.tail (HSorted.head_lt t k v1 hb)]
        simp
      · simp [hk]

theorem hLookup_head_zero (t : Hist) (k1 v1 : ℕ)
    (hs : HSorted ((k1, v1) :: t)) : hLookup t k1 = 0 :=
  hLookup_eq_zero_of_lt t k1 hs.tail (HSorted.head_lt t k1 v1 hs)

theorem hLookup_all_gt (h : Hist) (k : ℕ) (hs : HSorted h)
    (hk : ∀ p ∈ h, k < p.1) : hLookup h k = 0 :=
  hLookup_eq_zero_of_lt h k hs hk

theorem hist_ext (h1 : Hist) : ∀ h2 : Hist, HWf h1 → HWf h2 →
    (∀ k, hLookup h1 k = hLookup h2 k) → h1 = h2 := by
  induction h1 with
  | nil =>
      intro h2 _ hw2 h
      cases h2 with
      | nil => rfl
      | cons q t =>
          obtain ⟨qk, qv⟩ := q
          have hq := h qk
          simp [hLookup] at hq
          have hv := hw2.2 (qk, qv) (List.mem_cons_self _ _)
          simp at hv
          omega
  | cons p t1 ih =>
      intro h2 hw1 hw2 h
      obtain ⟨pk, pv⟩ := p
      cases h2 with
      | nil =>
          have hq := h pk
          simp [hLookup] at hq
          have hv := hw1.2 (pk, pv) (List.mem_cons_self _ _)
          simp at hv
          omega
      | cons q t2 =>
          obtain ⟨qk, qv⟩ := q
          have hvp : 0 < pv := by
            have := hw1.2 (pk, pv) (List.mem_cons_self _ _)
            simpa using this
          have hvq : 0 < qv := by
            have := hw2.2 (qk, qv) (List.mem_cons_self _ _)
            simpa using this
          have hpq : pk = qk := by
            by_contra hne
            rcases Nat.lt_or_ge pk qk with hlt | hge
            · have h1x := h pk
              rw [hLookup, if_pos rfl,
                hLookup_all_gt ((qk, qv) :: t2) pk hw2.1 ?_] at h1x
              · omega
              · intro r hr
                rcases List.mem_cons.mp hr with hh | hh
                · rw [hh]
                  exact hlt
                · have := HSorted.head_lt t2 qk qv hw2.1 r hh
                  omega
            · have hlt : qk < pk := by omega
              have h1x := h qk
              rw [hLookup_all_gt ((pk, pv) :: t1) qk hw1.1 ?_] at h1x
              · rw [hLookup, if_pos rfl] at h1x
                omega
              · intro r hr
                rcases List.mem_cons.mp hr with hh | hh
                · rw [hh]
                  exact hlt
                · have := HSorted.head_lt t1 pk pv hw1.1 r hh
                  omega
          subst hpq
          have hv : pv = qv := by
            have := h pk
            simpa [hLookup] using this
          subst hv
          have htail : ∀ k, hLookup t1 k = hLookup t2 k := by
            intro k
            by_cases hk : k = pk
            · subst hk
              rw [hLookup_head_zero t1 k pv hw1.1,
                hLookup_head_zero t2 k pv hw2.1]
            · have := h k
              simpa [hLookup, hk] using this
          rw [ih t2 ⟨hw1.1.tail,
              fun r hr => hw1.2 r (List.mem_cons_of_mem _ hr)⟩
            ⟨hw2.1.tail, fun r hr => hw2.2 r (List.mem_cons_of_mem _ hr)⟩
            htail]

theorem histOf_go_lookup (l : List ℕ) (acc : Hist) (hs : HSorted acc)
    (k : ℕ) :
    hLookup (l.foldl (fun h x => bump h x 1) acc) k
      = hLookup acc k + l.count k := by
  induction l generalizing acc with
  | nil => simp
  | cons x t ih =>
      rw [List.foldl_cons, ih _ (bump_sorted acc x 1 hs),
        hLookup_bump acc x 1 k hs]
      rw [List.count_cons]
      by_cases hk : k = x <;> simp [hk] <;> omega

theorem histOf_go_sorted (l : List ℕ) (acc : Hist) (hs : HSorted acc) :
    HSorted (l.foldl (fun h x => bump h x 1) acc) := by
  induction l generalizing acc with
  | nil => exact hs
  | cons x t ih => exact ih _ (bump_sorted acc x 1 hs)

theorem histOf_go_pos (l : List ℕ) (acc : Hist) (hp : HPos acc) :
    HPos (l.foldl (fun h x => bump h x 1) acc) := by
  induction l generalizing acc with
  | nil => exact hp
  | cons x t ih => exact ih _ (bump_pos acc x 1 (by norm_num) hp)

theorem histOf_wf (l : List ℕ) : HWf (histOf l) :=
  ⟨histOf_go_sorted l [] List.chain'_nil,
   histOf_go_pos l [] (fun p hp => absurd hp (List.not_mem_nil p))⟩

theorem hLookup_histOf (l : List ℕ) (k : ℕ) :
    hLookup (histOf l) k = l.count k := by
  have := histOf_go_lookup l [] List.chain'_nil k
  simpa [histOf, hLookup] using this

theorem ulpaccReduction_wf (a b : Hist) (ha : HWf a) (hb : HWf b) :
    HWf (ulpaccReduction a b) :=
  ⟨ulpaccReduction_sorted b a ha.1, ulpaccReduction_pos b a ha.2 hb.2⟩

theorem reduceParts_lookup (parts : List (List ℕ)) (acc : Hist)
    (hs : HSorted acc) (k : ℕ) :
    hLookup (parts.foldl (fun acc ch => ulpaccReduction acc (histOf ch)) acc) k
      = hLookup acc k + parts.flatten.count k := by
  induction parts generalizing acc with
  | nil => simp
  | cons ch t ih =>
      rw [List.foldl_cons,
        ih _ (ulpaccReduction_sorted (histOf ch) acc hs),
        hLookup_ulpaccReduction (histOf ch) acc hs (histOf_wf ch).1,
        hLookup_histOf]
      simp [List.count_append]
      omega

theorem reduceParts_go_wf (parts : List (List ℕ)) (acc : Hist)
    (ha : HWf acc) :
    HWf (parts.foldl (fun acc ch => ulpaccReduction acc (histOf ch)) acc) := by
  induction parts generalizing acc with
  | nil => exact ha
  | cons ch t ih =>
      exact ih _ (ulpaccReduction_wf acc (histOf ch) ha (histOf_wf ch))

theorem reduceParts_wf (parts : List (List ℕ)) :
    HWf (parts.foldl (fun acc ch => ulpaccReduction acc (histOf ch)) []) :=
  reduceParts_go_wf parts []
    ⟨List.chain'_nil, fun p hp => absurd hp (List.not_mem_nil p)⟩

/-- C9: histogram reduction (`ulpacc_reduction`) is pointwise addition of
counts per ULP key, hence commutative and associative on well-formed
histograms; and reducing the per-sample unit increments of a fixed sample
list split into chunks equals the histogram of the whole list, so every
chunking and every chunk count produce the same histogram. -/
theorem c9_histogram_merge :
    (∀ a b : Hist, HWf a → HWf b →
      ulpaccReduction a b = ulpaccReduction b a)
    ∧ (∀ a b c : Hist, HWf a → HWf b → HWf c →
      ulpaccReduction (ulpaccReduction a b) c
        = ulpaccReduction a (ulpaccReduction b c))
    ∧ (∀ parts : List (List ℕ),
      parts.foldl (fun acc ch => ulpaccReduction acc (histOf ch)) []
        = histOf parts.flatten)
    ∧ (∀ parts1 parts2 : List (List ℕ), parts1.flatten = parts2.flatten →
      parts1.foldl (fun acc ch => ulpaccReduction acc (histOf ch)) []
        = parts2.foldl (fun acc ch => ulpaccReduction acc (histOf ch)) []) := by
  have hthird : ∀ parts : List (List ℕ),
      parts.foldl (fun acc ch => ulpaccReduction acc (histOf ch)) []
        = histOf parts.flatten := by
    intro parts
    apply hist_ext _ _ (reduceParts_wf parts) (histOf_wf _)
    intro k
    rw [hLookup_histOf, reduceParts_lookup parts [] List.chain'_nil k]
    simp [hLookup]
  refine ⟨?_, ?_, hthird, ?_⟩
  · intro a b ha hb
    apply hist_ext _ _ (ulpaccReduction_wf a b ha hb)
      (ulpaccReduction_wf b a hb ha)
    intro k
    rw [hLookup_ulpaccReduction b a ha.1 hb.1,
      hLookup_ulpaccReduction a b hb.1 ha.1]
    omega
  · intro a b c ha hb hc
    apply hist_ext _ _
      (ulpaccReduction_wf _ c (ulpaccReduction_wf a b ha hb) hc)
      (ulpaccReduction_wf a _ ha (ulpaccReduction_wf b c hb hc))
    intro k
    rw [hLookup_ulpaccReduction c _ (ulpaccReduction_wf a b ha hb).1 hc.1,
      hLookup_ulpaccReduction b a ha.1 hb.1,
      hLookup_ulpaccReduction _ a ha.1 (ulpaccReduction_wf b c hb hc).1,
      hLookup_ulpaccReduction c b hb.1 hc.1]
    omega
  · intro parts1 parts2 hj
    rw [hthird, hthird, hj]

/-- Witness for C9: a concrete commutation and a concrete re-chunking of
the sample list `[1, 2, 1]`. -/
theorem c9_witness :
    ulpaccReduction [(1, 2)] [(0, 1), (2, 5)]
      = ulpaccReduction [(0, 1), (2, 5)] [(1, 2)]
    ∧ ([[1, 2], [1]].foldl (fun acc ch => ulpaccReduction acc (histOf ch)) []
      = [[1], [2, 1]].foldl
          (fun acc ch => ulpaccReduction acc (histOf ch)) []) :=
  ⟨c9_histogram_merge.1 [(1, 2)] [(0, 1), (2, 5)]
      ⟨List.chain'_singleton _, by unfold HPos; decide⟩
      ⟨List.chain'_cons.mpr ⟨by norm_num, List.chain'_singleton _⟩,
        by unfold HPos; decide⟩,
   c9_histogram_merge.2.2.2 [[1, 2], [1]] [[1], [2, 1]] (by decide)⟩

end Checkulps

